import Mathlib

/-!
Verification of the AgroEcoGym engine core: the discretized action-space
construction (`space_builder.py`), the flat-index/structured action converter
(`action_conversion.py`), the ranged-value model (`entity_api.py`) and the
two-phase stepping protocol (`simulation_core.py`), shallowly embedded in Lean.

Python floats are modelled as exact rationals, Python ints as `Nat`/`Int`,
fallible Python code (exceptions such as `KeyError`, `TypeError`) as `Option`.
-/

/-- A Python value as it appears in parameter schemas and decoded parameters:
a float/int, a string, a tuple of ints (parsed plot coordinates), or a dict. -/
inductive PVal where
  | num (q : ℚ)
  | str (s : String)
  | tup (l : List PVal)
  | dict (l : List (String × PVal))
deriving Repr

/-- A parameter schema as declared in an entity's `actions` mapping
(the `action_yaml[fa][fi][e][action]` value): a string `"(m,M)"` denoting a
continuous interval (carried here with its parsed bounds), a finite list of
domain values, `None` (no parameters), or a nested dict of schemas.
Mirrors the case analysis of `make` in
`SpaceBuilder.build_farmgym_intervention_actions`. -/
inductive PSchema where
  | interval (m M : ℚ)
  | finite (dom : List PVal)
  | none0
  | map (l : List (String × PSchema))
deriving Repr

/-- The gym space compiled from a parameter schema: `Discrete n`,
`Box(low=m, high=M, shape=())`, or `Dict`. -/
inductive GSpace where
  | discrete (n : ℕ)
  | box (m M : ℚ)
  | dict (l : List (String × GSpace))
deriving Repr

/-- The raw decoded parameter value before `_convert_param` repackaging:
a digit (`act = theindex` for `Discrete`), a real value (for `Box`), or a
dict of such (for `Dict`). -/
inductive DecAct where
  | natv (n : ℕ)
  | ratv (q : ℚ)
  | dictv (l : List (String × DecAct))
deriving Repr

/-- The sort key Python compares strings by: their code points,
lexicographically. -/
def keyOf (s : String) : List ℕ :=
  s.data.map Char.toNat

/-- Insertion step of `sortFields`: places a keyed space before the first
entry with a strictly greater key. -/
def insertFieldSorted (p : String × GSpace) : List (String × GSpace) → List (String × GSpace)
  | [] => [p]
  | q :: rest =>
      if keyOf p.1 < keyOf q.1 then p :: q :: rest else q :: insertFieldSorted p rest

/-- Key sorting performed by the gymnasium `Dict` constructor: a `Dict` built
from a plain dict sorts its keys alphabetically, so iteration over the
compiled space does NOT follow the schema's declared key order (the
repository notes this itself in `build_gym_observation_space`:
"It seems to sort them by alphabetic order !!"). -/
def sortFields : List (String × GSpace) → List (String × GSpace)
  | [] => []
  | p :: rest => insertFieldSorted p (sortFields rest)

mutual

/-- Function `make` in `SpaceBuilder.build_farmgym_intervention_actions`: compiles a
parameter schema into a gym space. A string interval becomes a `Box`, a list
becomes `Discrete(len)`, `None` becomes `Discrete(1)`, a dict becomes a
gymnasium `Dict`, whose constructor re-orders the declared children by
sorting their keys alphabetically (`sortFields`). -/
def make : PSchema → GSpace
  | .interval m M => .box m M
  | .finite dom => .discrete dom.length
  | .none0 => .discrete 1
  | .map l => .dict (sortFields (makeFields l))

/-- Compiles a schema dict's children in declared order; the gymnasium `Dict`
around them then sorts the keys (see `make`). -/
def makeFields : List (String × PSchema) → List (String × GSpace)
  | [] => []
  | (k, s) :: rest => (k, make s) :: makeFields rest

end

/-- Function `len_discretized_gym_space` in `SpaceBuilder.build_farmgym_intervention_actions`:
the discretized size of a compiled gym space.  For a `Dict`, the running product
starts at `1` and is multiplied by `n` for each `Discrete` child and by `nbins`
for each `Box` child (`nbins ** np.prod(space.shape)` with scalar shape `()`);
children of any other type — in particular nested `Dict`s — are skipped by the
`isinstance` chain.  A top-level `Discrete` yields `n`, a top-level `Box` yields
`nbins` (the code assumes dimension 1).  `lenDictStep` is the body of the
`for key in gym_space` loop. -/
def lenDictStep (nbins : ℕ) (acc : ℕ) (p : String × GSpace) : ℕ :=
  match p.2 with
  | .discrete n => acc * n
  | .box _ _ => acc * nbins
  | .dict _ => acc

def lenDiscretizedGymSpace (gs : GSpace) (nbins : ℕ) : ℕ :=
  match gs with
  | .dict l => l.foldl (lenDictStep nbins) 1
  | .discrete n => n
  | .box _ _ => nbins

/-- Method `SpaceBuilder._get_discretization_bins`: reads
`actions_allowed["params"]["number_of_bins_to_discretize_continuous_actions"]`
and falls back to `11` on `KeyError`. -/
def getDiscretizationBins (configured : Option ℕ) : ℕ :=
  configured.getD 11

/-- One entry of `farmgym_intervention_actions`: the tuple
`(fa, fi, e, a, f_a, g, ng)` built in
`SpaceBuilder.build_farmgym_intervention_actions`. -/
structure InterEntry where
  fa : String
  fi : String
  e : String
  a : String
  schema : PSchema
  g : GSpace
  ng : ℕ
deriving Repr

/-- Builds one intervention-catalog entry exactly as
`build_farmgym_intervention_actions` does: `g = make(schema)` and
`ng = len_discretized_gym_space(g, nbins)`. -/
def buildEntry (fa fi e a : String) (schema : PSchema) (nbins : ℕ) : InterEntry :=
  { fa := fa, fi := fi, e := e, a := a, schema := schema,
    g := make schema,
    ng := lenDiscretizedGymSpace (make schema) nbins }

/-- One entry of `farmgym_observation_actions`: the tuple
`(farmer, field, entity, variable, path)`. -/
structure ObsAct where
  fa : String
  fi : String
  e : String
  v : String
  path : List String
deriving Repr, DecidableEq

/-- Variable `naction` in `SpaceBuilder.build_gym_discretized_action_space`: starts at
`len(farmgym_observation_actions)` and adds `ng` for every intervention entry;
this is the size of the flat `Discrete` space handed to the agent. -/
def nactionOf (obsActs : List ObsAct) (catalog : List InterEntry) : ℕ :=
  catalog.foldl (fun n en => n + en.ng) obsActs.length

/-- The block-locating loop of
`ActionConverter.gymaction_to_discretized_farmgymaction`: scan the catalog in
order; if `ng > theindex` the current entry is selected with within-block
offset `theindex`, otherwise subtract `ng` and continue.  Falling off the end
leaves `theaction = None` (modelled as `none`; the subsequent unpacking would
raise in Python). -/
def findBlock : List InterEntry → ℕ → Option (InterEntry × ℕ)
  | [], _ => none
  | en :: rest, i => if i < en.ng then some (en, i) else findBlock rest (i - en.ng)

/-- The continuous decoding formula of
`gymaction_to_discretized_farmgymaction`:
`act = m + j / (discretization_nbins + 1) * (M - m)`. -/
def boxVal (nbins : ℕ) (m M : ℚ) (j : ℕ) : ℚ :=
  m + (j : ℚ) / ((nbins : ℚ) + 1) * (M - m)

/-- The `Dict` branch of `gymaction_to_discretized_farmgymaction`: walk the
keys in the gym space's iteration order (the declared keys sorted
alphabetically by the gymnasium `Dict` constructor, see `make`) with a
running `factor` (initially `ng`); a `Discrete` child divides the factor by
its `n`, a `Box` child by `nbins`, each extracting digit `j = i // factor`
and shrinking `i` by `j * factor`; children of other types (nested `Dict`s)
are skipped by the `isinstance` chain. -/
def decodeDictAux (nbins : ℕ) : List (String × GSpace) → ℕ → ℕ → List (String × DecAct)
  | [], _, _ => []
  | (k, .discrete n) :: rest, factor, i =>
      let f := factor / n
      let j := i / f
      (k, .natv j) :: decodeDictAux nbins rest f (i - j * f)
  | (k, .box m M) :: rest, factor, i =>
      let f := factor / nbins
      let j := i / f
      (k, .ratv (boxVal nbins m M j)) :: decodeDictAux nbins rest f (i - j * f)
  | (_, .dict _) :: rest, factor, i => decodeDictAux nbins rest factor i

/-- The per-entry parameter decoding of
`gymaction_to_discretized_farmgymaction`: a `Discrete` space yields the raw
offset, a `Box` yields the continuous formula applied to
`j = i // (ng // nbins)`, and a `Dict` runs the mixed-radix walk. -/
def decodeWithinBlock (nbins : ℕ) (g : GSpace) (ng : ℕ) (i : ℕ) : DecAct :=
  match g with
  | .discrete _ => .natv i
  | .box m M =>
      let factor := ng / nbins
      let j := i / factor
      .ratv (boxVal nbins m M j)
  | .dict l => .dictv (decodeDictAux nbins l ng i)

/-- Function `yml_tuple_constructor` (`core/utils/yaml.py`) with `f = int`: strips the
surrounding parentheses and parses the comma-separated items; a parse failure
raises in Python (modelled as `none`). -/
def ymlTupleConstructorInt (v : String) : Option (List ℤ) :=
  (((v.drop 1).dropRight 1).splitOn ",").mapM (fun x => x.toInt?)

/-- The finite-list element conversion inside `_convert_param`: an element that
is a string containing a parenthesis is parsed as a plot-coordinate tuple,
anything else is returned as is. -/
def convertDomElem (el : PVal) : Option PVal :=
  match el with
  | .str s =>
      if s.contains (Char.ofNat 40) then
        (ymlTupleConstructorInt s).map (fun l => .tup (l.map (fun z => .num (z : ℚ))))
      else some (.str s)
  | _ => some el

/-- Key lookup on a decoded parameter dict, modelling Python `value[k]`
(`KeyError` becomes `none`). -/
def lookupKey (l : List (String × DecAct)) (k : String) : Option DecAct :=
  (l.find? (fun p => p.1 == k)).map (fun p => p.2)

mutual

/-- Method `ActionConverter._convert_param(value, ranges)`: `ranges is None` returns
an empty dict; a list schema indexes the domain (`ranges[value]`, with plot
strings parsed); an interval-string schema applies `float(value)`; a dict
schema converts each declared key (`value[k]` may raise `KeyError`, e.g. for
nested-dict children that the decoder skipped).  Python exceptions are
modelled as `none`. -/
def convertParam : DecAct → PSchema → Option PVal
  | _, .none0 => some (.dict [])
  | .natv n, .finite dom => (dom.get? n).bind convertDomElem
  | _, .finite _ => none
  | .natv n, .interval _ _ => some (.num (n : ℚ))
  | .ratv q, .interval _ _ => some (.num q)
  | .dictv _, .interval _ _ => none
  | .dictv l, .map fs => (convertParamFields l fs).map .dict
  | _, .map _ => none

def convertParamFields (l : List (String × DecAct)) : List (String × PSchema) → Option (List (String × PVal))
  | [] => some []
  | (k, r) :: rest =>
      (lookupKey l k).bind (fun v =>
        (convertParam v r).bind (fun cv =>
          (convertParamFields l rest).map (fun tail => (k, cv) :: tail)))

end

/-- A farm-gym action as produced by the converter: either an observation
catalog entry `(fa, fi, e, variable, path)` or a structured intervention
`(fa, fi, e, action, params)`. -/
inductive FgAction where
  | obs (o : ObsAct)
  | intervene (fa fi e a : String) (params : PVal)
deriving Repr

/-- Method `ActionConverter.gymaction_to_discretized_farmgymaction` for a single flat
index: an index below the observation-catalog size selects that observation
entry directly; otherwise the remainder is located in the intervention blocks
(`findBlock`), the within-block offset is decoded against the entry's gym
space, and `_convert_param` repackages the result.  `none` models the Python
errors raised on an out-of-range index (unpacking `None`) or on a schema the
decoder does not support. -/
def decodeOne (nbins : ℕ) (obsActs : List ObsAct) (catalog : List InterEntry)
    (action : ℕ) : Option FgAction :=
  if h : action < obsActs.length then
    some (.obs (obsActs.get ⟨action, h⟩))
  else
    match findBlock catalog (action - obsActs.length) with
    | none => none
    | some (en, theindex) =>
        (convertParam (decodeWithinBlock nbins en.g en.ng theindex) en.schema).map
          (fun p => .intervene en.fa en.fi en.e en.a p)

/-- Method `ActionConverter.gymaction_to_discretized_farmgymaction` over a whole
action schedule. -/
def gymactionToDiscretizedFarmgymaction (nbins : ℕ) (obsActs : List ObsAct)
    (catalog : List InterEntry) (actions : List ℕ) : Option (List FgAction) :=
  actions.mapM (decodeOne nbins obsActs catalog)

/-- The Python value of a farm-gym action tuple, for modelling Python `==`:
both observation and intervention actions are 5-tuples. -/
def pyOfFgAction : FgAction → PVal
  | .obs o => .tup [.str o.fa, .str o.fi, .str o.e, .str o.v, .tup (o.path.map .str)]
  | .intervene fa fi e a p => .tup [.str fa, .str fi, .str e, .str a, p]

/-- The fourth component of a decoded 5-tuple: the variable name of an
observation entry or the action name of an intervention (the local variable
`a` after `fa, fi, e, a, p = a[0]` in
`ActionConverter.discretized_farmgymaction_to_gymaction`). -/
def actionNameOf : FgAction → String
  | .obs o => o.v
  | .intervene _ _ _ a _ => a

/-- Python `s[0]` on a string: its first character as a length-1 string;
raises `IndexError` on an empty string (modelled as `none`). -/
def strFirst (s : String) : Option String :=
  if s.isEmpty then none else some (s.take 1)

mutual

/-- Python `==` on the modelled Python values.  Values of different types
(e.g. a tuple and a string) compare unequal; dicts are compared here in key
order, which agrees with Python on the dicts the converter produces. -/
def pyEquals : PVal → PVal → Bool
  | .num a, .num b => a == b
  | .str a, .str b => a == b
  | .tup a, .tup b => pyEqualsList a b
  | .dict a, .dict b => pyEqualsFields a b
  | _, _ => false

def pyEqualsList : List PVal → List PVal → Bool
  | [], [] => true
  | a :: l1, b :: l2 => pyEquals a b && pyEqualsList l1 l2
  | _, _ => false

def pyEqualsFields : List (String × PVal) → List (String × PVal) → Bool
  | [], [] => true
  | (k1, a) :: l1, (k2, b) :: l2 => k1 == k2 && pyEquals a b && pyEqualsFields l1 l2
  | _, _ => false

end

/-- Method `ActionConverter.discretized_farmgymaction_to_gymaction`: for each
structured action, brute-force scan `i` over
`range(env.action_space.space.n + len(farmgym_observation_actions))`
(note: the flat space size `naction` already counts the observation actions,
so the bound overshoots by the observation-catalog size), decode `[i]`,
unpack `fa, fi, e, a, p = a[0]` — which rebinds the local `a` to the decoded
action name — and append `i` when `action == a[0]`, i.e. when the structured
action compares equal to the FIRST CHARACTER of the decoded action name.
A decode failure raises (modelled as `none`). -/
def discretizedFarmgymactionToGymaction (nbins : ℕ) (obsActs : List ObsAct)
    (catalog : List InterEntry) (actions : List FgAction) : Option (List ℕ) :=
  let nbTot := nactionOf obsActs catalog + obsActs.length
  actions.foldlM (fun ii action =>
    (List.range nbTot).foldlM (fun ii i =>
      match decodeOne nbins obsActs catalog i with
      | none => none
      | some dec =>
          (strFirst (actionNameOf dec)).map (fun c =>
            if pyEquals (pyOfFgAction action) (.str c) then ii ++ [i] else ii)) ii)
    []

/-- An argument passed to `Range.set_value`: either a real number
(`isinstance(value, numbers.Real)` holds) or any non-numeric value. -/
inductive PyInput where
  | num (x : ℚ)
  | nonNumeric
deriving Repr, DecidableEq

/-- A continuous `Range` (`apis/entity_api.py`), i.e. one whose `range`
attribute is a tuple `(min, max)`.  (The categorical branch, where `range` is
a finite domain, is not needed by the claims about continuous ranges.) -/
structure CRange where
  min : ℚ
  max : ℚ
  value : ℚ
  default_value : ℚ
deriving Repr, DecidableEq

/-- Constructor `Range.__init__` for a tuple range: `default_value` stores the raw
constructor argument unclamped, while the current value is clamped,
`self.value = max(self.min, min(self.max, value))`. -/
def rangeInitContinuous (m M value : ℚ) : CRange :=
  { min := m, max := M, value := max m (min M value), default_value := value }

/-- Method `Range.set_value` for a tuple range: a real argument is clamped into
`[min, max]`; any non-numeric argument falls back to `default_value`. -/
def setValueContinuous (r : CRange) (v : PyInput) : CRange :=
  match v with
  | .num x => { r with value := max r.min (min r.max x) }
  | .nonNumeric => { r with value := r.default_value }

/-- The flattened variable tree of one field: leaf path (a rendered
`entity/variable/path` key) to current scalar value. -/
abbrev FieldState := List (String × ℚ)

/-- One farm-gym observation result
`(farmer, field, entity, variable, path, value)`. -/
structure ObsOut where
  fa : String
  fi : String
  e : String
  v : String
  path : List String
  value : ℚ
deriving Repr, DecidableEq

/-- One item of an action schedule passed to `farmgym_step`: an observation
action or a structured intervention. -/
inductive ScheduleItem where
  | obs (fa fi e v : String) (path : List String)
  | intervene (fa fi e a : String) (params : PVal)
deriving Repr

/-- Holds exactly for observation items. -/
def isObsItem : ScheduleItem → Bool
  | .obs .. => true
  | .intervene .. => false

/-- An effect recorded while running an intervention step: a
`field.update_to_next_day()` call (which runs `update_variables` on the
field's entities) or one final-reward addition for a field. -/
inductive StepEvent where
  | updateVariables (fi : String)
  | finalRewardAdded (fi : String)
deriving Repr, DecidableEq

/-- The external collaborators of `SimulationCore`, passed as plain functions:
the scoring API (`observation_cost`, `intervention_cost`, `reward`,
`final_reward`), the rules API termination predicate (`is_terminal`) and free
observation list, the per-field daily update and the per-entity intervention
handler, and the seeding function.  `resetFields` is modelled from the spec:
`Field.reset` (not under `src/`) re-initializes every entity's variable tree
as a function of the freshly reseeded shared generator. -/
structure Collab where
  seedFn : ℕ → ℕ
  resetFields : ℕ → List (String × FieldState)
  freeObs : List (String × String × String × String × List String)
  obsCost : String → String → String → String → List String → ℚ
  intvCost : String → String → String → String → PVal → ℚ
  rewardF : FieldState → ℚ
  finalRewardF : FieldState → ℚ
  isTerminal : List (String × FieldState) → Bool
  applyIntv : FieldState → String → String → PVal → FieldState × List ObsOut
  updateField : ℕ → FieldState → FieldState

/-- The mutable state relevant to `SimulationCore`: the shared random
generator (an abstract seed value), the per-field variable trees, and the
`is_observation_time` phase flag. -/
structure FarmState where
  rng : ℕ
  fields : List (String × FieldState)
  isObservationTime : Bool

/-- The 5-tuple returned by `farmgym_step` plus the resulting state and the
recorded intervention-effect events. -/
structure StepOutput where
  state : FarmState
  observations : List ObsOut
  reward : ℚ
  terminated : Bool
  truncated : Bool
  infoKey : String
  infoCost : ℚ
  events : List StepEvent

/-- Modelled from the spec: the Rules collaborator (`rules_api`, not under
`src/`) supplies `filter_actions`, which keeps observation actions only
during the observation phase and intervention actions only during the
intervention phase. -/
def filterActions (isObservationTime : Bool) (schedule : List ScheduleItem) : List ScheduleItem :=
  schedule.filter (fun a =>
    match a with
    | .obs .. => isObservationTime
    | .intervene .. => !isObservationTime)

/-- Field lookup by key, modelling `env.fields[fi_key]`. -/
def lookupField (fields : List (String × FieldState)) (fi : String) : FieldState :=
  ((fields.find? (fun p => p.1 == fi)).map (fun p => p.2)).getD []

/-- The rendered leaf key of a variable path. -/
def varKey (e v : String) (path : List String) : String :=
  String.intercalate "/" (e :: v :: path)

/-- Variable lookup inside a field, modelling
`entities[e_key].observe_variable(variable_key, path)` as a pure read. -/
def lookupVar (f : FieldState) (key : String) : ℚ :=
  (((f.find? (fun p => p.1 == key)).map (fun p => p.2))).getD 0

/-- Modelled from the spec: `Farmer_API.perform_observation` (not under
`src/`) fetches the requested variable's value and emits one
`(farmer, field, entity, variable, path, value)` tuple, mutating no entity
state. -/
def performObservation (fields : List (String × FieldState)) (fa fi e v : String)
    (path : List String) : List ObsOut :=
  [⟨fa, fi, e, v, path, lookupVar (lookupField fields fi) (varKey e v path)⟩]

/-- Method `SimulationCore.get_free_observations`: reads each free observation's
current value; a pure read of the variable trees. -/
def getFreeObservations (c : Collab) (fields : List (String × FieldState)) : List ObsOut :=
  c.freeObs.map (fun fo =>
    match fo with
    | (fa, fi, e, v, path) =>
        ⟨fa, fi, e, v, path, lookupVar (lookupField fields fi) (varKey e v path)⟩)

/-- Method `SimulationCore._observation_step`: for each scheduled observation, charge
its cost and fetch its value; return
`(observations, 0, False, False, {"observation cost": total})` without
touching any variable tree.  Intervention items cannot reach this point
(they are removed by `filter_actions` in `farmgym_step`) and contribute
nothing. -/
def observationStep (c : Collab) (s : FarmState) (schedule : List ScheduleItem) : StepOutput :=
  { state := s,
    observations := schedule.foldl (fun acc item =>
      match item with
      | .obs fa fi e v path => acc ++ performObservation s.fields fa fi e v path
      | .intervene .. => acc) [],
    reward := 0,
    terminated := false,
    truncated := false,
    infoKey := "observation cost",
    infoCost := schedule.foldl (fun acc item =>
      match item with
      | .obs fa fi e v path => acc + c.obsCost fa fi e v path
      | .intervene .. => acc) 0,
    events := [] }

/-- Replace one field's state, modelling in-place mutation of
`env.fields[fi_key]`. -/
def updateAssoc (fields : List (String × FieldState)) (k : String) (f : FieldState) :
    List (String × FieldState) :=
  fields.map (fun p => if p.1 == k then (k, f) else p)

/-- The intervention loop of `SimulationCore._intervention_step`: charge each
intervention's cost and dispatch it to the target entity's handler
(`farmer.perform_intervention`, which mutates the field's variable tree and
returns feedback observations).  Observation items cannot reach this point
(they are removed by `filter_actions`) and contribute nothing.  Returns the
mutated fields, the accumulated feedback observations and the summed cost. -/
def applyInterventionSchedule (c : Collab) :
    List (String × FieldState) → List ScheduleItem →
    List (String × FieldState) × List ObsOut × ℚ
  | fields, [] => (fields, [], 0)
  | fields, .intervene fa fi e a p :: rest =>
      let cost := c.intvCost fa fi e a p
      let fobs := c.applyIntv (lookupField fields fi) e a p
      let r := applyInterventionSchedule c (updateAssoc fields fi fobs.1) rest
      (r.1, fobs.2 ++ r.2.1, cost + r.2.2)
  | fields, .obs .. :: rest => applyInterventionSchedule c fields rest

/-- Method `SimulationCore._intervention_step`: apply the interventions, advance
every field to the next day (`update_to_next_day`, in registration order),
sum the per-field rewards, evaluate the termination predicate, add one final
reward per field exactly when terminal, append the free observations and
return `(observations, reward, terminated, False,
{"intervention cost": total})`. -/
def interventionStep (c : Collab) (s : FarmState) (schedule : List ScheduleItem) : StepOutput :=
  let afc := applyInterventionSchedule c s.fields schedule
  let fields2 := afc.1.map (fun p => (p.1, c.updateField s.rng p.2))
  let updEvents := afc.1.map (fun p => StepEvent.updateVariables p.1)
  let reward0 := (fields2.map (fun p => c.rewardF p.2)).sum
  let terminated := c.isTerminal fields2
  let reward := if terminated
    then reward0 + (fields2.map (fun p => c.finalRewardF p.2)).sum
    else reward0
  let finEvents := if terminated
    then fields2.map (fun p => StepEvent.finalRewardAdded p.1)
    else []
  { state := { s with fields := fields2 },
    observations := afc.2.1 ++ getFreeObservations c fields2,
    reward := reward,
    terminated := terminated,
    truncated := false,
    infoKey := "intervention cost",
    infoCost := afc.2.2,
    events := updEvents ++ finEvents }

/-- Method `SimulationCore.farmgym_step`: filter the schedule through the Rules
collaborator for the current phase, run the observation or intervention step
accordingly, and flip the `is_observation_time` flag. -/
def farmgymStep (c : Collab) (s : FarmState) (schedule : List ScheduleItem) : StepOutput :=
  let filtered := filterActions s.isObservationTime schedule
  if s.isObservationTime then
    let o := observationStep c s filtered
    { o with state := { o.state with isObservationTime := false } }
  else
    let o := interventionStep c s filtered
    { o with state := { o.state with isObservationTime := true } }

/-- Method `SimulationCore.farmgym_reset`: reseed the generator
(`seeding.np_random(seed)`), propagate it to every field and reset them
(`f.np_random = self.np_random; f.reset()`), clear the phase flag to
observe, and return the free observations with
`info = {"intervention cost": 0}`.  The post-reset state does not depend on
the pre-reset state. -/
def farmgymReset (c : Collab) (seed : ℕ) (_s : FarmState) :
    FarmState × List ObsOut × String × ℚ :=
  let rng := c.seedFn seed
  let fields := c.resetFields rng
  ({ rng := rng, fields := fields, isObservationTime := true },
   getFreeObservations c fields, "intervention cost", 0)

/-- The observable trajectory of successive `farmgym_step` calls: for each
scheduled action batch, the returned
`(observations, reward, terminated, truncated, info)` tuple. -/
def trajectory (c : Collab) (s : FarmState) :
    List (List ScheduleItem) → List (List ObsOut × ℚ × Bool × Bool × String × ℚ)
  | [] => []
  | sched :: rest =>
      let o := farmgymStep c s sched
      (o.observations, o.reward, o.terminated, o.truncated, o.infoKey, o.infoCost)
        :: trajectory c o.state rest

/-- The farm state left after a sequence of `farmgym_step` calls. -/
def finalState (c : Collab) (s : FarmState) : List (List ScheduleItem) → FarmState
  | [] => s
  | sched :: rest => finalState c (farmgymStep c s sched).state rest

/-- All effect events of an episode: steps are run in order and the episode
ends as soon as a step returns `terminated = True` (the RL driver then stops
stepping and must reset). -/
def runEpisodeEvents (c : Collab) (s : FarmState) :
    List (List ScheduleItem) → List StepEvent
  | [] => []
  | sched :: rest =>
      let o := farmgymStep c s sched
      o.events ++ (if o.terminated then [] else runEpisodeEvents c o.state rest)

/-- Holds when no `updateVariables` event occurs after any
`finalRewardAdded` event in the trace. -/
def noUpdateAfterFinal : List StepEvent → Bool
  | [] => true
  | .updateVariables _ :: rest => noUpdateAfterFinal rest
  | .finalRewardAdded _ :: rest =>
      rest.all (fun ev =>
        match ev with
        | .updateVariables _ => false
        | .finalRewardAdded _ => true) && noUpdateAfterFinal rest

/-- The cardinalities of the axes the decoder walks inside a `Dict` space, in
the space's key order (for a space built by `make`, the declared keys sorted
alphabetically): `n` per `Discrete` child, `nbins` per `Box` child; nested
`Dict` children are skipped, exactly as in `decodeDictAux` and
`len_discretized_gym_space`. -/
def axesOfList (nbins : ℕ) : List (String × GSpace) → List ℕ
  | [] => []
  | (_, .discrete n) :: rest => n :: axesOfList nbins rest
  | (_, .box _ _) :: rest => nbins :: axesOfList nbins rest
  | (_, .dict _) :: rest => axesOfList nbins rest

/-- The axis-cardinality list of a compiled gym space: a top-level `Discrete`
or `Box` is a single axis, a `Dict` contributes its walked children. -/
def axesOf (nbins : ℕ) : GSpace → List ℕ
  | .discrete n => [n]
  | .box _ _ => [nbins]
  | .dict l => axesOfList nbins l

/-- The digit sequence the decoder's running-factor walk extracts: starting
from `factor` (initially the block size `ng`), each axis of cardinality `c`
divides the factor by `c` and reads off `j = i // factor`, keeping the
remainder, exactly as in `gymaction_to_discretized_farmgymaction`. -/
def extractDigits : List ℕ → ℕ → ℕ → List ℕ
  | [], _, _ => []
  | c :: rest, factor, i =>
      let f := factor / c
      let j := i / f
      j :: extractDigits rest f (i - j * f)

/-- Mixed-radix recomposition: each digit's place value is the product of the
cardinalities of the axes after it. -/
def encodeDigits : List ℕ → List ℕ → ℕ
  | _ :: rest, d :: ds => d * rest.prod + encodeDigits rest ds
  | _, _ => 0

/-- Like `findBlock` but with the selected entry reported by catalog position. -/
def findBlockIdx : List InterEntry → ℕ → Option (ℕ × ℕ)
  | [], _ => none
  | en :: rest, i =>
      if i < en.ng then some (0, i)
      else (findBlockIdx rest (i - en.ng)).map (fun p => (p.1 + 1, p.2))

/-- The sum of the block sizes of the first `k` catalog entries: the first
flat index of entry `k`'s block, relative to the intervention region. -/
def ngBefore (catalog : List InterEntry) (k : ℕ) : ℕ :=
  ((catalog.take k).map (fun en => en.ng)).sum

/-- The total size of the intervention region. -/
def totNg (catalog : List InterEntry) : ℕ :=
  (catalog.map (fun en => en.ng)).sum

/-- The decoder's mixed-radix view of an intervention-region index: the
catalog position located by the block scan together with the digit tuple
extracted from the within-block offset. -/
def decodeEntryDigits (nbins : ℕ) (catalog : List InterEntry) (x : ℕ) :
    Option (ℕ × List ℕ) :=
  (findBlockIdx catalog x).bind (fun p =>
    (catalog.get? p.1).map (fun en =>
      (p.1, extractDigits (axesOf nbins en.g) en.ng p.2)))

/-- Applies an extracted digit sequence back onto a `Dict` space's children
in the order given: a `Discrete` child consumes its digit as is, a `Box`
child consumes its digit through the continuous decoding formula, nested
`Dict` children are skipped. -/
def applyDigits (nbins : ℕ) : List (String × GSpace) → List ℕ → List (String × DecAct)
  | [], _ => []
  | (_, .dict _) :: rest, ds => applyDigits nbins rest ds
  | (k, .discrete _) :: rest, d :: ds => (k, .natv d) :: applyDigits nbins rest ds
  | (k, .box m M) :: rest, d :: ds => (k, .ratv (boxVal nbins m M d)) :: applyDigits nbins rest ds
  | _ :: _, [] => []

mutual

/-- The composite cardinality as the SPEC's words state it: the product of
the cardinalities of ALL leaves of the parameter schema — `B` per continuous
interval leaf, the domain length per finite-list leaf, `1` for a `None`
schema — including leaves nested inside mapping-valued children.  Kept
separate from `lenDiscretizedGymSpace` (the code's computation) so the two
can be compared. -/
def specCompositeCardinality (nbins : ℕ) : PSchema → ℕ
  | .interval _ _ => nbins
  | .finite dom => dom.length
  | .none0 => 1
  | .map l => specCompositeCardinalityFields nbins l

def specCompositeCardinalityFields (nbins : ℕ) : List (String × PSchema) → ℕ
  | [] => 1
  | (_, s) :: rest => specCompositeCardinality nbins s * specCompositeCardinalityFields nbins rest

end

/-- The cardinality a DIRECT child of a mapping schema contributes to the
code's `ng`: `nbins` for an interval, the domain length for a list, `1` for
`None`, and `1` for a mapping child (skipped by `len_discretized_gym_space`). -/
def directChildCardinality (nbins : ℕ) : PSchema → ℕ
  | .interval _ _ => nbins
  | .finite dom => dom.length
  | .none0 => 1
  | .map _ => 1

/-- What the code actually computes for `ng`: the product over the schema's
direct children only (a top-level leaf contributes its own cardinality);
leaves nested inside mapping-valued children are not counted. -/
def directLeafCardinality (nbins : ℕ) : PSchema → ℕ
  | .map l => (l.map (fun p => directChildCardinality nbins p.2)).prod
  | s => directChildCardinality nbins s

lemma setValueContinuous_fields (r : CRange) (x : PyInput) :
    (setValueContinuous r x).min = r.min ∧ (setValueContinuous r x).max = r.max ∧
    (setValueContinuous r x).default_value = r.default_value := by
  cases x <;> simp [setValueContinuous]

lemma foldl_setValueContinuous_fields (xs : List PyInput) (r : CRange) :
    (xs.foldl setValueContinuous r).min = r.min ∧
    (xs.foldl setValueContinuous r).max = r.max ∧
    (xs.foldl setValueContinuous r).default_value = r.default_value := by
  induction xs generalizing r with
  | nil => exact ⟨rfl, rfl, rfl⟩
  | cons x xs ih =>
      have h := setValueContinuous_fields r x
      have h2 := ih (setValueContinuous r x)
      simp only [List.foldl_cons]
      exact ⟨h2.1.trans h.1, h2.2.1.trans h.2.1, h2.2.2.trans h.2.2⟩

lemma setValueContinuous_bounds (m M v : ℚ) (hmM : m ≤ M) (hv1 : m ≤ v) (hv2 : v ≤ M)
    (r : CRange) (hmin : r.min = m) (hmax : r.max = M) (hdv : r.default_value = v)
    (x : PyInput) :
    m ≤ (setValueContinuous r x).value ∧ (setValueContinuous r x).value ≤ M := by
  cases x with
  | num q =>
      simp only [setValueContinuous, hmin, hmax]
      exact ⟨le_max_left _ _, max_le hmM (min_le_left _ _)⟩
  | nonNumeric =>
      simp only [setValueContinuous, hdv]
      exact ⟨hv1, hv2⟩

/-- C6 counterexample: the claim fails on the code as stated.  A continuous
`Range((0, 1), 5)` stores `default_value = 5` unclamped; a single non-numeric
`set_value` then makes `value = 5`, violating `min ≤ value ≤ max`. -/
theorem C6_counterexample :
    ¬ ((setValueContinuous (rangeInitContinuous 0 1 5) PyInput.nonNumeric).min ≤
         (setValueContinuous (rangeInitContinuous 0 1 5) PyInput.nonNumeric).value ∧
       (setValueContinuous (rangeInitContinuous 0 1 5) PyInput.nonNumeric).value ≤
         (setValueContinuous (rangeInitContinuous 0 1 5) PyInput.nonNumeric).max) := by
  intro h
  have h2 := h.2
  norm_num [setValueContinuous, rangeInitContinuous] at h2

lemma setValue_seq_bounds (m M v : ℚ) (hmM : m ≤ M) (hv1 : m ≤ v) (hv2 : v ≤ M)
    (xs : List PyInput) (x : PyInput) :
    m ≤ (setValueContinuous (xs.foldl setValueContinuous (rangeInitContinuous m M v)) x).value ∧
    (setValueContinuous (xs.foldl setValueContinuous (rangeInitContinuous m M v)) x).value ≤ M := by
  have hinit : (rangeInitContinuous m M v).min = m ∧ (rangeInitContinuous m M v).max = M ∧
      (rangeInitContinuous m M v).default_value = v := ⟨rfl, rfl, rfl⟩
  have hf := foldl_setValueContinuous_fields xs (rangeInitContinuous m M v)
  exact setValueContinuous_bounds m M v hmM hv1 hv2 _
    (hf.1.trans hinit.1) (hf.2.1.trans hinit.2.1) (hf.2.2.trans hinit.2.2) x

/-- C6 (amended): for a continuous Range constructed over `(min, max)` with
`min ≤ max` and a construction-time initial value inside `[min, max]`, after
any sequence of `set_value` calls and one more `set_value(x)` — numeric `x`
being clamped, non-numeric `x` falling back to `default_value` — the
invariant `min ≤ value ≤ max` holds.  (The unconditional claim is false
because `default_value` stores the raw constructor argument unclamped.) -/
theorem C6_set_value_invariant (m M v : ℚ) (hmM : m ≤ M) (hv1 : m ≤ v) (hv2 : v ≤ M)
    (xs : List PyInput) (x : PyInput) :
    m ≤ (setValueContinuous (xs.foldl setValueContinuous (rangeInitContinuous m M v)) x).value ∧
    (setValueContinuous (xs.foldl setValueContinuous (rangeInitContinuous m M v)) x).value ≤ M :=
  setValue_seq_bounds m M v hmM hv1 hv2 xs x

/-- Witness for C6 (amended) at `(min, max) = (0, 1)`, initial value `1/2`,
one numeric write `7` followed by a non-numeric write. -/
theorem C6_set_value_invariant_witness :
    (0 : ℚ) ≤ (setValueContinuous
        (List.foldl setValueContinuous (rangeInitContinuous 0 1 (1/2)) [PyInput.num 7])
        PyInput.nonNumeric).value ∧
    (setValueContinuous
        (List.foldl setValueContinuous (rangeInitContinuous 0 1 (1/2)) [PyInput.num 7])
        PyInput.nonNumeric).value ≤ 1 :=
  C6_set_value_invariant 0 1 (1/2) (by norm_num) (by norm_num) (by norm_num)
    [PyInput.num 7] PyInput.nonNumeric

/-- C10: the constructor stores `default_value` as the raw initial argument
without clamping, while the current value is clamped into `[min, max]`; if
the initial value lies within `[min, max]` the invariant is preserved by
every subsequent sequence of `set_value` calls, whereas if it was out of
range, a single non-numeric `set_value` sets `value` to the out-of-range
`default_value`. -/
theorem C10_default_value_unclamped (m M v : ℚ) (hmM : m ≤ M) :
    (rangeInitContinuous m M v).default_value = v ∧
    (rangeInitContinuous m M v).value = max m (min M v) ∧
    (m ≤ v → v ≤ M → ∀ (xs : List PyInput) (x : PyInput),
      m ≤ (setValueContinuous (xs.foldl setValueContinuous (rangeInitContinuous m M v)) x).value ∧
      (setValueContinuous (xs.foldl setValueContinuous (rangeInitContinuous m M v)) x).value ≤ M) ∧
    ((v < m ∨ M < v) →
      (setValueContinuous (rangeInitContinuous m M v) PyInput.nonNumeric).value = v) := by
  refine ⟨rfl, rfl, ?_, ?_⟩
  · intro hv1 hv2 xs x
    exact setValue_seq_bounds m M v hmM hv1 hv2 xs x
  · intro _
    rfl

/-- Witness for C10 at `(min, max) = (0, 1)` with out-of-range initial
value `5`. -/
theorem C10_default_value_unclamped_witness :
    (rangeInitContinuous 0 1 5).default_value = 5 ∧
    (setValueContinuous (rangeInitContinuous 0 1 5) PyInput.nonNumeric).value = 5 :=
  ⟨(C10_default_value_unclamped 0 1 5 (by norm_num)).1,
   (C10_default_value_unclamped 0 1 5 (by norm_num)).2.2.2 (Or.inr (by norm_num))⟩

/-- C2: for a continuous axis `(m, M)` with bin count `B`, the decoder maps
digit `j` to `m + j/(B+1) * (M-m)` (this is `boxVal`, the exact formula the
`Box` branches of `gymaction_to_discretized_farmgymaction` compute; for a
single-axis `Box` block of size `ng = B` the offset is the digit itself);
whenever `m < M` the decoded values are strictly increasing in `j` and the
value at the top digit `j = B-1` is strictly below `M`. -/
theorem C2_continuous_digit_decoding (m M : ℚ) (B : ℕ) :
    (∀ j : ℕ, boxVal B m M j = m + (j : ℚ) / ((B : ℚ) + 1) * (M - m)) ∧
    (0 < B → ∀ i : ℕ, decodeWithinBlock B (.box m M) B i = .ratv (boxVal B m M i)) ∧
    (m < M → ∀ j1 j2 : ℕ, j1 < j2 → boxVal B m M j1 < boxVal B m M j2) ∧
    (m < M → 1 ≤ B → boxVal B m M (B - 1) < M) := by
  refine ⟨fun j => rfl, ?_, ?_, ?_⟩
  · intro hB i
    simp [decodeWithinBlock, Nat.div_self hB]
  · intro hmM j1 j2 h
    unfold boxVal
    have hMm : (0 : ℚ) < M - m := sub_pos.mpr hmM
    have hj : ((j1 : ℚ)) / ((B : ℚ) + 1) < ((j2 : ℚ)) / ((B : ℚ) + 1) := by
      gcongr
    have := mul_lt_mul_of_pos_right hj hMm
    linarith
  · intro hmM hB
    have hcast : (((B - 1 : ℕ)) : ℚ) = (B : ℚ) - 1 := by
      push_cast [Nat.cast_sub hB]
      ring
    unfold boxVal
    rw [hcast]
    have hBpos : (0 : ℚ) < (B : ℚ) + 1 := by positivity
    have hMm : (0 : ℚ) < M - m := sub_pos.mpr hmM
    have hlt : ((B : ℚ) - 1) / ((B : ℚ) + 1) < 1 := by
      rw [div_lt_one hBpos]
      linarith
    have := mul_lt_of_lt_one_left hMm hlt
    linarith

/-- Witness for C2 at axis `(0, 20)` with `B = 11`. -/
theorem C2_continuous_digit_decoding_witness :
    decodeWithinBlock 11 (GSpace.box 0 20) 11 5 = DecAct.ratv (boxVal 11 0 20 5) ∧
    boxVal 11 0 20 5 < boxVal 11 0 20 6 ∧
    boxVal 11 0 20 (11 - 1) < 20 :=
  ⟨(C2_continuous_digit_decoding 0 20 11).2.1 (by norm_num) 5,
   (C2_continuous_digit_decoding 0 20 11).2.2.1 (by norm_num) 5 6 (by norm_num),
   (C2_continuous_digit_decoding 0 20 11).2.2.2 (by norm_num) (by norm_num)⟩

lemma foldl_add_ng (l : List InterEntry) (init : ℕ) :
    l.foldl (fun n en => n + en.ng) init = init + (l.map (fun en => en.ng)).sum := by
  induction l generalizing init with
  | nil => simp
  | cons a l ih => simp [ih, Nat.add_assoc]

lemma nactionOf_eq (obsActs : List ObsAct) (catalog : List InterEntry) :
    nactionOf obsActs catalog = obsActs.length + totNg catalog :=
  foldl_add_ng catalog obsActs.length

lemma ngBefore_zero (catalog : List InterEntry) : ngBefore catalog 0 = 0 := by
  simp [ngBefore]

lemma ngBefore_succ (en : InterEntry) (rest : List InterEntry) (k : ℕ) :
    ngBefore (en :: rest) (k + 1) = en.ng + ngBefore rest k := by
  simp [ngBefore]

lemma findBlock_cons (en : InterEntry) (rest : List InterEntry) (i : ℕ) :
    findBlock (en :: rest) i =
      if i < en.ng then some (en, i) else findBlock rest (i - en.ng) := rfl

lemma findBlock_block (catalog : List InterEntry) :
    ∀ (k : ℕ) (hk : k < catalog.length) (off : ℕ), off < (catalog.get ⟨k, hk⟩).ng →
      findBlock catalog (ngBefore catalog k + off) = some (catalog.get ⟨k, hk⟩, off) := by
  induction catalog with
  | nil => intro k hk; exact absurd hk (by simp)
  | cons en rest ih =>
      intro k hk off hoff
      cases k with
      | zero =>
          simp only [ngBefore_zero, Nat.zero_add, findBlock_cons]
          simp only [List.get] at hoff ⊢
          rw [if_pos hoff]
      | succ k =>
          rw [ngBefore_succ, Nat.add_assoc, findBlock_cons, if_neg (by omega)]
          simp only [List.get] at hoff ⊢
          have hk2 : k < rest.length := Nat.lt_of_succ_lt_succ hk
          have hsub : en.ng + (ngBefore rest k + off) - en.ng = ngBefore rest k + off := by
            omega
          rw [hsub]
          exact ih k hk2 off hoff

/-- C1: the flat discretized action-index space (the `Discrete` handed to the
agent by `build_gym_discretized_action_space`) has size `O + Σ ng`; every
index `i < O` decodes directly to observation-catalog entry `i`, and the
intervention entries occupy consecutive contiguous blocks of `ng` indices
each, in catalog order, starting at `O`: index `O + (ng_0 + ... + ng_(k-1)) + off`
with `off < ng_k` is decoded against entry `k` at within-block offset `off`. -/
theorem C1_flat_space_layout (nbins : ℕ) (obsActs : List ObsAct) (catalog : List InterEntry) :
    nactionOf obsActs catalog = obsActs.length + totNg catalog ∧
    (∀ (i : ℕ) (h : i < obsActs.length),
      decodeOne nbins obsActs catalog i = some (.obs (obsActs.get ⟨i, h⟩))) ∧
    (∀ (k : ℕ) (hk : k < catalog.length) (off : ℕ), off < (catalog.get ⟨k, hk⟩).ng →
      findBlock catalog (ngBefore catalog k + off) = some (catalog.get ⟨k, hk⟩, off) ∧
      decodeOne nbins obsActs catalog (obsActs.length + (ngBefore catalog k + off)) =
        (convertParam
            (decodeWithinBlock nbins (catalog.get ⟨k, hk⟩).g (catalog.get ⟨k, hk⟩).ng off)
            (catalog.get ⟨k, hk⟩).schema).map
          (fun p => .intervene (catalog.get ⟨k, hk⟩).fa (catalog.get ⟨k, hk⟩).fi
              (catalog.get ⟨k, hk⟩).e (catalog.get ⟨k, hk⟩).a p)) := by
  refine ⟨nactionOf_eq obsActs catalog, ?_, ?_⟩
  · intro i h
    unfold decodeOne
    rw [dif_pos h]
  · intro k hk off hoff
    have hfb := findBlock_block catalog k hk off hoff
    refine ⟨hfb, ?_⟩
    unfold decodeOne
    rw [dif_neg (by omega)]
    have hsub : obsActs.length + (ngBefore catalog k + off) - obsActs.length =
        ngBefore catalog k + off := by omega
    rw [hsub, hfb]

/-- The C1 scenario observation catalog (`O = 3`). -/
def c1Obs : List ObsAct :=
  [⟨"BasicFarmer-0", "Field-0", "Weather-0", "day", []⟩,
   ⟨"BasicFarmer-0", "Field-0", "Weather-0", "air_temperature", []⟩,
   ⟨"BasicFarmer-0", "Field-0", "Plant-0", "stage", []⟩]

/-- The C1 scenario intervention catalog: one entry whose parameter schema is
a 4-element list, so `ng = 4`. -/
def c1Catalog : List InterEntry :=
  [buildEntry "BasicFarmer-0" "Field-0" "Plant-0" "water"
    (.finite [.num 0, .num 1, .num 2, .num 3]) 11]

/-- Witness for C1 at the spec scenario `O = 3`, one intervention with
`ng = 4`: flat space size `7`, index `2` decodes to observation entry `2`,
indices `3` and `6` decode to the intervention's first and last parameter
combinations. -/
theorem C1_flat_space_layout_witness :
    nactionOf c1Obs c1Catalog = 7 ∧
    decodeOne 11 c1Obs c1Catalog 2 =
      some (.obs ⟨"BasicFarmer-0", "Field-0", "Plant-0", "stage", []⟩) ∧
    decodeOne 11 c1Obs c1Catalog 3 =
      some (.intervene "BasicFarmer-0" "Field-0" "Plant-0" "water" (.num 0)) ∧
    decodeOne 11 c1Obs c1Catalog 6 =
      some (.intervene "BasicFarmer-0" "Field-0" "Plant-0" "water" (.num 3)) := by
  have h := C1_flat_space_layout 11 c1Obs c1Catalog
  refine ⟨h.1.trans (by rfl), (h.2.1 2 (by decide)).trans (by rfl), ?_, ?_⟩
  · have h3 := (h.2.2 0 (by decide) 0 (by decide)).2
    exact h3.trans (by rfl)
  · have h6 := (h.2.2 0 (by decide) 3 (by decide)).2
    exact h6.trans (by rfl)

/-- The factor a single `Dict` child contributes to
`len_discretized_gym_space`: `n` for `Discrete`, `nbins` for `Box`, `1` for a
skipped nested `Dict`. -/
def dictChildFactor (nbins : ℕ) : GSpace → ℕ
  | .discrete n => n
  | .box _ _ => nbins
  | .dict _ => 1

lemma foldl_lenDictStep (nbins : ℕ) (l : List (String × GSpace)) (acc : ℕ) :
    l.foldl (lenDictStep nbins) acc =
      acc * (l.map (fun p => dictChildFactor nbins p.2)).prod := by
  induction l generalizing acc with
  | nil => simp
  | cons p rest ih =>
      obtain ⟨k, g⟩ := p
      simp only [List.foldl_cons, List.map_cons, List.prod_cons]
      cases g with
      | discrete n =>
          rw [ih]
          simp [lenDictStep, dictChildFactor, Nat.mul_assoc]
      | box m M =>
          rw [ih]
          simp [lenDictStep, dictChildFactor, Nat.mul_assoc]
      | dict l2 =>
          rw [ih]
          simp [lenDictStep, dictChildFactor]

lemma map_dictChildFactor_makeFields (nbins : ℕ) (l : List (String × PSchema)) :
    (makeFields l).map (fun p => dictChildFactor nbins p.2) =
      l.map (fun p => directChildCardinality nbins p.2) := by
  induction l with
  | nil => rfl
  | cons p rest ih =>
      obtain ⟨k, s⟩ := p
      cases s <;> (simp only [makeFields, List.map_cons]; exact congrArg₂ List.cons rfl ih)

lemma insertFieldSorted_perm (p : String × GSpace) (l : List (String × GSpace)) :
    List.Perm (insertFieldSorted p l) (p :: l) := by
  induction l with
  | nil => exact List.Perm.refl _
  | cons q rest ih =>
      unfold insertFieldSorted
      by_cases h : keyOf p.1 < keyOf q.1
      · rw [if_pos h]
      · rw [if_neg h]
        exact (ih.cons q).trans (List.Perm.swap p q rest)

lemma sortFields_perm (l : List (String × GSpace)) : List.Perm (sortFields l) l := by
  induction l with
  | nil => exact List.Perm.refl _
  | cons p rest ih =>
      unfold sortFields
      exact (insertFieldSorted_perm p (sortFields rest)).trans (ih.cons p)

lemma mem_insertFieldSorted (p q : String × GSpace) (l : List (String × GSpace)) :
    q ∈ insertFieldSorted p l ↔ q = p ∨ q ∈ l := by
  rw [(insertFieldSorted_perm p l).mem_iff]
  simp

lemma pairwise_insertFieldSorted (p : String × GSpace) (l : List (String × GSpace))
    (h : List.Pairwise (fun a b => keyOf a.1 ≤ keyOf b.1) l) :
    List.Pairwise (fun a b => keyOf a.1 ≤ keyOf b.1) (insertFieldSorted p l) := by
  induction l with
  | nil => simp [insertFieldSorted]
  | cons q rest ih =>
      rw [List.pairwise_cons] at h
      obtain ⟨h1, h2⟩ := h
      unfold insertFieldSorted
      by_cases hpq : keyOf p.1 < keyOf q.1
      · rw [if_pos hpq, List.pairwise_cons]
        constructor
        · intro b hb
          rcases List.mem_cons.mp hb with hbq | hbr
          · rw [hbq]
            exact le_of_lt hpq
          · exact le_trans (le_of_lt hpq) (h1 b hbr)
        · rw [List.pairwise_cons]
          exact ⟨h1, h2⟩
      · rw [if_neg hpq, List.pairwise_cons]
        constructor
        · intro b hb
          rcases (mem_insertFieldSorted p b rest).mp hb with hbp | hbr
          · rw [hbp]
            exact not_lt.mp hpq
          · exact h1 b hbr
        · exact ih h2

lemma sortFields_sorted (l : List (String × GSpace)) :
    List.Pairwise (fun a b => keyOf a.1 ≤ keyOf b.1) (sortFields l) := by
  induction l with
  | nil => exact List.Pairwise.nil
  | cons p rest ih => exact pairwise_insertFieldSorted p (sortFields rest) ih

lemma lenDiscretized_make_eq (nbins : ℕ) (s : PSchema) :
    lenDiscretizedGymSpace (make s) nbins = directLeafCardinality nbins s := by
  cases s with
  | interval m M => rfl
  | finite dom => rfl
  | none0 => rfl
  | map l =>
      show (sortFields (makeFields l)).foldl (lenDictStep nbins) 1 = _
      rw [foldl_lenDictStep, Nat.one_mul,
        List.Perm.prod_eq
          ((sortFields_perm (makeFields l)).map (fun p => dictChildFactor nbins p.2)),
        map_dictChildFactor_makeFields]
      rfl

/-- A parameter schema with a leaf nested inside a mapping-valued child:
`{"outer": {"inner": [x, y]}}`. -/
def c5NestedSchema : PSchema :=
  .map [("outer", .map [("inner", .finite [.str "x", .str "y"])])]

/-- C5 counterexample: the claim fails on the code.  For a schema whose only
leaf (of cardinality 2) is nested inside a mapping-valued child, the spec's
"product of the cardinalities of all leaves" is `2`, but
`len_discretized_gym_space` skips nested `Dict` children, so the memoized
`ng` is `1`. -/
theorem C5_counterexample :
    lenDiscretizedGymSpace (make c5NestedSchema) 11 = 1 ∧
    specCompositeCardinality 11 c5NestedSchema = 2 ∧
    lenDiscretizedGymSpace (make c5NestedSchema) 11 ≠
      specCompositeCardinality 11 c5NestedSchema := by
  exact ⟨rfl, rfl, by decide⟩

/-- C5 (amended): the memoized `ng` of an intervention entry equals the
product of the cardinalities of the schema's DIRECT children only — the
domain length for a finite-list leaf, the configured bin count `B` (default
`11` when not configured) for a continuous interval leaf, `1` for a `None`
schema — while a mapping-valued child contributes factor `1`: leaves nested
inside it are not counted (they are skipped by `len_discretized_gym_space`).
In particular a single continuous axis `(0, 20)` with `B = 11` yields
`ng = 11`, and decoding within-block offset `5` yields value
`0 + 5/12 * 20`. -/
theorem C5_composite_cardinality (s : PSchema) (nbins : ℕ) :
    (buildEntry "BasicFarmer-0" "Field-0" "Soil-0" "water" s nbins).ng =
      directLeafCardinality nbins s ∧
    getDiscretizationBins none = 11 ∧
    (buildEntry "BasicFarmer-0" "Field-0" "Soil-0" "water" (.interval 0 20) 11).ng = 11 ∧
    decodeOne 11 []
        [buildEntry "BasicFarmer-0" "Field-0" "Soil-0" "water" (.interval 0 20) 11] 5 =
      some (.intervene "BasicFarmer-0" "Field-0" "Soil-0" "water" (.num (boxVal 11 0 20 5))) ∧
    boxVal 11 0 20 5 = 25/3 := by
  refine ⟨lenDiscretized_make_eq nbins s, rfl, rfl, ?_, by norm_num [boxVal]⟩
  rfl

/-- The C4 catalog: no observation actions (so the brute-force bound does not
overshoot into a crash) and one intervention entry whose parameter schema is
a 2-element list. -/
def c4Catalog : List InterEntry :=
  [buildEntry "BasicFarmer-0" "Field-0" "Plant-0" "water" (.finite [.num 0, .num 1]) 11]

/-- The structured action that flat index `0` decodes to under `c4Catalog`. -/
def c4Action : FgAction :=
  .intervene "BasicFarmer-0" "Field-0" "Plant-0" "water" (.num 0)

/-- C4 (code bug): the encode direction never matches anything.  In
`discretized_farmgymaction_to_gymaction`, the unpacking
`fa, fi, e, a, p = a[0]` rebinds `a` from the decoded list to the decoded
action-name string, so the subsequent test `action == a[0]` compares the
structured action 5-tuple with the FIRST CHARACTER of the action name — in
Python a tuple never equals a string, so the comparison is always false
(first conjunct), and encoding returns the empty index list even for an
action the decoder itself produces (second and third conjuncts), instead of
the matching index the docstring and the round-trip property promise. -/
theorem C4_encode_never_matches :
    (∀ (act : FgAction) (c : String), pyEquals (pyOfFgAction act) (.str c) = false) ∧
    gymactionToDiscretizedFarmgymaction 11 [] c4Catalog [0] = some [c4Action] ∧
    discretizedFarmgymactionToGymaction 11 [] c4Catalog [c4Action] = some [] := by
  refine ⟨?_, rfl, rfl⟩
  intro act c
  cases act <;> rfl

lemma decodeDictAux_applyDigits (nbins : ℕ) (l : List (String × GSpace)) :
    ∀ (factor i : ℕ), decodeDictAux nbins l factor i =
      applyDigits nbins l (extractDigits (axesOfList nbins l) factor i) := by
  induction l with
  | nil => intro factor i; rfl
  | cons p rest ih =>
      intro factor i
      obtain ⟨k, g⟩ := p
      cases g with
      | discrete n =>
          simp only [decodeDictAux, axesOfList, extractDigits, applyDigits]
          rw [ih]
      | box m M =>
          simp only [decodeDictAux, axesOfList, extractDigits, applyDigits]
          rw [ih]
      | dict l2 =>
          simp only [decodeDictAux, axesOfList, applyDigits]
          rw [ih]

lemma extractDigits_spec (axes : List ℕ) :
    (∀ c ∈ axes, 0 < c) → ∀ i : ℕ, i < axes.prod →
      List.Forall₂ (fun d c => d < c) (extractDigits axes axes.prod i) axes ∧
      encodeDigits axes (extractDigits axes axes.prod i) = i := by
  induction axes with
  | nil =>
      intro _ i hi
      simp only [List.prod_nil, Nat.lt_one_iff] at hi
      subst hi
      exact ⟨List.Forall₂.nil, rfl⟩
  | cons c rest ih =>
      intro hpos i hi
      have hc : 0 < c := hpos c (List.mem_cons_self c rest)
      have hrest : ∀ x ∈ rest, 0 < x := fun x hx => hpos x (List.mem_cons_of_mem c hx)
      have hp : 0 < rest.prod := List.prod_pos hrest
      rw [List.prod_cons] at hi
      have hfac : (c * rest.prod) / c = rest.prod := Nat.mul_div_cancel_left _ hc
      have hj : i / rest.prod < c := (Nat.div_lt_iff_lt_mul hp).mpr (by omega)
      have hdm := Nat.div_add_mod i rest.prod
      have hcomm : i / rest.prod * rest.prod = rest.prod * (i / rest.prod) :=
        Nat.mul_comm _ _
      have hsub : i - i / rest.prod * rest.prod = i % rest.prod := by omega
      have hmod : i % rest.prod < rest.prod := Nat.mod_lt _ hp
      have hrec := ih hrest (i % rest.prod) hmod
      constructor
      · show List.Forall₂ _ (extractDigits (c :: rest) (List.prod (c :: rest)) i) _
        rw [List.prod_cons]
        simp only [extractDigits, hfac, hsub]
        exact List.Forall₂.cons hj hrec.1
      · show encodeDigits _ (extractDigits (c :: rest) (List.prod (c :: rest)) i) = i
        rw [List.prod_cons]
        simp only [extractDigits, hfac, hsub, encodeDigits]
        rw [hrec.2]
        omega

lemma encodeDigits_spec (axes : List ℕ) (ds : List ℕ)
    (hpos : ∀ c ∈ axes, 0 < c) (hds : List.Forall₂ (fun d c => d < c) ds axes) :
    encodeDigits axes ds < axes.prod ∧
    extractDigits axes axes.prod (encodeDigits axes ds) = ds := by
  induction hds with
  | nil => exact ⟨Nat.zero_lt_one, rfl⟩
  | @cons d c ds cs hd htail ih =>
      have hc : 0 < c := hpos c (List.mem_cons_self c cs)
      have hrest : ∀ x ∈ cs, 0 < x := fun x hx => hpos x (List.mem_cons_of_mem c hx)
      have hp : 0 < cs.prod := List.prod_pos hrest
      have ihr := ih hrest
      have hlt : encodeDigits (c :: cs) (d :: ds) < (c :: cs).prod := by
        simp only [encodeDigits, List.prod_cons]
        have h1 : d * cs.prod + encodeDigits cs ds < (d + 1) * cs.prod := by
          rw [Nat.succ_mul]
          omega
        have h2 : (d + 1) * cs.prod ≤ c * cs.prod :=
          Nat.mul_le_mul_right _ hd
        omega
      refine ⟨hlt, ?_⟩
      show extractDigits (c :: cs) (List.prod (c :: cs)) _ = _
      rw [List.prod_cons]
      simp only [encodeDigits, extractDigits,
        Nat.mul_div_cancel_left _ hc]
      have hjd : (d * cs.prod + encodeDigits cs ds) / cs.prod = d := by
        rw [Nat.add_comm, Nat.add_mul_div_right _ _ hp,
          Nat.div_eq_of_lt ihr.1]
        omega
      rw [hjd]
      have hsub : d * cs.prod + encodeDigits cs ds - d * cs.prod = encodeDigits cs ds := by
        omega
      rw [hsub, ihr.2]

lemma totNg_cons (en : InterEntry) (rest : List InterEntry) :
    totNg (en :: rest) = en.ng + totNg rest := by
  simp [totNg]

lemma findBlockIdx_cons (en : InterEntry) (rest : List InterEntry) (i : ℕ) :
    findBlockIdx (en :: rest) i =
      if i < en.ng then some (0, i)
      else (findBlockIdx rest (i - en.ng)).map (fun p => (p.1 + 1, p.2)) := rfl

lemma findBlockIdx_block (catalog : List InterEntry) :
    ∀ (k : ℕ) (hk : k < catalog.length) (off : ℕ), off < (catalog.get ⟨k, hk⟩).ng →
      findBlockIdx catalog (ngBefore catalog k + off) = some (k, off) := by
  induction catalog with
  | nil => intro k hk; exact absurd hk (by simp)
  | cons en rest ih =>
      intro k hk off hoff
      cases k with
      | zero =>
          simp only [ngBefore_zero, Nat.zero_add, findBlockIdx_cons]
          simp only [List.get] at hoff ⊢
          rw [if_pos hoff]
      | succ k =>
          rw [ngBefore_succ, Nat.add_assoc, findBlockIdx_cons, if_neg (by omega)]
          simp only [List.get] at hoff ⊢
          have hk2 : k < rest.length := Nat.lt_of_succ_lt_succ hk
          have hsub : en.ng + (ngBefore rest k + off) - en.ng = ngBefore rest k + off := by
            omega
          rw [hsub, ih k hk2 off hoff]
          rfl

lemma ngBefore_add_lt (catalog : List InterEntry) :
    ∀ (k : ℕ) (hk : k < catalog.length) (off : ℕ), off < (catalog.get ⟨k, hk⟩).ng →
      ngBefore catalog k + off < totNg catalog := by
  induction catalog with
  | nil => intro k hk; exact absurd hk (by simp)
  | cons en rest ih =>
      intro k hk off hoff
      rw [totNg_cons]
      cases k with
      | zero =>
          simp only [List.get] at hoff
          rw [ngBefore_zero]
          omega
      | succ k =>
          simp only [List.get] at hoff
          have hk2 : k < rest.length := Nat.lt_of_succ_lt_succ hk
          have := ih k hk2 off hoff
          rw [ngBefore_succ]
          omega

lemma findBlockIdx_complete (catalog : List InterEntry) :
    ∀ x : ℕ, x < totNg catalog →
      ∃ (k off : ℕ) (hk : k < catalog.length),
        findBlockIdx catalog x = some (k, off) ∧
        off < (catalog.get ⟨k, hk⟩).ng ∧ x = ngBefore catalog k + off := by
  induction catalog with
  | nil =>
      intro x hx
      simp [totNg] at hx
  | cons en rest ih =>
      intro x hx
      rw [totNg_cons] at hx
      by_cases h : x < en.ng
      · refine ⟨0, x, by simp, ?_, ?_, ?_⟩
        · rw [findBlockIdx_cons, if_pos h]
        · simpa [List.get] using h
        · rw [ngBefore_zero, Nat.zero_add]
      · have hx2 : x - en.ng < totNg rest := by omega
        obtain ⟨k, off, hk, hfbi, hoff, hxeq⟩ := ih (x - en.ng) hx2
        refine ⟨k + 1, off, Nat.succ_lt_succ hk, ?_, ?_, ?_⟩
        · rw [findBlockIdx_cons, if_neg h, hfbi]
          rfl
        · simpa [List.get] using hoff
        · rw [ngBefore_succ]
          omega

lemma decodeEntryDigits_complete (nbins : ℕ) (catalog : List InterEntry)
    (hng : ∀ en ∈ catalog, en.ng = (axesOf nbins en.g).prod)
    (hpos : ∀ en ∈ catalog, ∀ c ∈ axesOf nbins en.g, 0 < c) :
    ∀ x : ℕ, x < totNg catalog →
      ∃ (k : ℕ) (en : InterEntry) (ds : List ℕ),
        decodeEntryDigits nbins catalog x = some (k, ds) ∧
        catalog.get? k = some en ∧
        List.Forall₂ (fun d c => d < c) ds (axesOf nbins en.g) ∧
        x = ngBefore catalog k + encodeDigits (axesOf nbins en.g) ds := by
  intro x hx
  obtain ⟨k, off, hk, hfbi, hoff, hxeq⟩ := findBlockIdx_complete catalog x hx
  set en := catalog.get ⟨k, hk⟩ with hen_def
  have hget : catalog.get? k = some en := List.get?_eq_get hk
  have hmem : en ∈ catalog := List.get_mem catalog k hk
  have hprod : en.ng = (axesOf nbins en.g).prod := hng en hmem
  have hspec := extractDigits_spec (axesOf nbins en.g) (hpos en hmem) off
    (by rw [← hprod]; exact hoff)
  refine ⟨k, en, extractDigits (axesOf nbins en.g) en.ng off, ?_, hget, ?_, ?_⟩
  · unfold decodeEntryDigits
    rw [hfbi, Option.some_bind, hget]
    rfl
  · rw [hprod]
    exact hspec.1
  · rw [hprod, hspec.2]
    exact hxeq

/-- The axis cardinalities of a schema dict's children in the schema's
DECLARED key order, following the claim's words ("the parameter schema's
declared axis order"): `nbins` per interval child, the domain length per
finite-list child, `1` per `None` child, nested mapping children skipped.
Kept separate from `axesOf` (the order the program actually walks, which is
the gymnasium `Dict`'s alphabetically sorted key order) so the two can be
compared. -/
def declaredAxesOfFields (nbins : ℕ) : List (String × PSchema) → List ℕ
  | [] => []
  | (_, .interval _ _) :: rest => nbins :: declaredAxesOfFields nbins rest
  | (_, .finite dom) :: rest => dom.length :: declaredAxesOfFields nbins rest
  | (_, .none0) :: rest => 1 :: declaredAxesOfFields nbins rest
  | (_, .map _) :: rest => declaredAxesOfFields nbins rest

/-- A parameter schema shaped like the in-repo Soil water actions
(`soil.py`): the categorical `plot` axis is DECLARED before the continuous
`amount#L` axis, but alphabetically `amount#L` sorts first. -/
def c3SoilFields : List (String × PSchema) :=
  [("plot", .finite [.str "a", .str "b", .str "c"]), ("amount#L", .interval 0 20)]

/-- The Soil-style schema as a `PSchema`. -/
def c3SoilSchema : PSchema :=
  .map c3SoilFields

/-- C3 counterexample: the claim fails on the code as stated.  The gymnasium
`Dict` built by `make` sorts its keys alphabetically (the repository notes
this in `build_gym_observation_space`), so for the Soil-style schema
`{plot, amount#L}` the program walks `amount#L` first: the walked axes are
`[11, 3]`, not the declared `[3, 11]`, and at within-block offset `1` the
program decodes `(amount#L digit 0, plot digit 1)` while the declared-order
extraction the claim asserts yields `(plot digit 0, amount#L digit 1)` —
different parameter values for the same flat index. -/
theorem C3_counterexample :
    axesOf 11 (make c3SoilSchema) = [11, 3] ∧
    declaredAxesOfFields 11 c3SoilFields = [3, 11] ∧
    axesOf 11 (make c3SoilSchema) ≠ declaredAxesOfFields 11 c3SoilFields ∧
    decodeWithinBlock 11 (make c3SoilSchema) 33 1 =
      .dictv [("amount#L", .ratv (boxVal 11 0 20 0)), ("plot", .natv 1)] ∧
    applyDigits 11 (makeFields c3SoilFields)
        (extractDigits (declaredAxesOfFields 11 c3SoilFields) 33 1) =
      [("plot", .natv 0), ("amount#L", .ratv (boxVal 11 0 20 1))] ∧
    boxVal 11 0 20 0 ≠ boxVal 11 0 20 1 := by
  refine ⟨rfl, rfl, by decide, rfl, rfl, ?_⟩
  norm_num [boxVal]

/-- C3 (amended): mixed-radix decoding over the intervention region is
exhaustive and non-overlapping, with digits extracted in the compiled gym
space's key order — gymnasium `Dict` sorts the schema's declared keys
alphabetically — and place value the product of the cardinalities of the
axes after it in that order.  `sortFields` (used by `make`) re-orders the
declared children into a key-sorted permutation (first conjunct); the `Dict`
walk of the decoder equals applying `extractDigits` digits onto the walked
children in order (second conjunct); every index below `Σ ng` decodes to
exactly one `(catalog entry, digit tuple)` with in-range digits, the index
being recovered as block start plus the mixed-radix value of the digits
(third conjunct); the decoding is injective (fourth conjunct) and every
digit combination of every entry is produced (fifth conjunct) — together,
each combination exactly once. -/
theorem C3_mixed_radix_bijection (nbins : ℕ) (catalog : List InterEntry)
    (hng : ∀ en ∈ catalog, en.ng = (axesOf nbins en.g).prod)
    (hpos : ∀ en ∈ catalog, ∀ c ∈ axesOf nbins en.g, 0 < c) :
    (∀ l : List (String × GSpace),
      List.Pairwise (fun a b => keyOf a.1 ≤ keyOf b.1) (sortFields l) ∧
      List.Perm (sortFields l) l) ∧
    (∀ (l : List (String × GSpace)) (factor i : ℕ),
      decodeDictAux nbins l factor i =
        applyDigits nbins l (extractDigits (axesOfList nbins l) factor i)) ∧
    (∀ x : ℕ, x < totNg catalog →
      ∃ (k : ℕ) (en : InterEntry) (ds : List ℕ),
        decodeEntryDigits nbins catalog x = some (k, ds) ∧
        catalog.get? k = some en ∧
        List.Forall₂ (fun d c => d < c) ds (axesOf nbins en.g) ∧
        x = ngBefore catalog k + encodeDigits (axesOf nbins en.g) ds) ∧
    (∀ x y : ℕ, x < totNg catalog → y < totNg catalog →
      decodeEntryDigits nbins catalog x = decodeEntryDigits nbins catalog y → x = y) ∧
    (∀ (k : ℕ) (en : InterEntry) (ds : List ℕ), catalog.get? k = some en →
      List.Forall₂ (fun d c => d < c) ds (axesOf nbins en.g) →
      ∃ x : ℕ, x < totNg catalog ∧
        decodeEntryDigits nbins catalog x = some (k, ds)) := by
  refine ⟨fun l => ⟨sortFields_sorted l, sortFields_perm l⟩,
    fun l => decodeDictAux_applyDigits nbins l,
    decodeEntryDigits_complete nbins catalog hng hpos, ?_, ?_⟩
  · intro x y hx hy heq
    obtain ⟨kx, enx, dsx, hdx, hgx, _, hxeq⟩ :=
      decodeEntryDigits_complete nbins catalog hng hpos x hx
    obtain ⟨ky, eny, dsy, hdy, hgy, _, hyeq⟩ :=
      decodeEntryDigits_complete nbins catalog hng hpos y hy
    rw [hdx, hdy] at heq
    have h2 := Option.some.inj heq
    have hkk : kx = ky := congrArg Prod.fst h2
    have hdd : dsx = dsy := congrArg Prod.snd h2
    subst hkk
    have henn : enx = eny := by
      rw [hgx] at hgy
      exact Option.some.inj hgy
    rw [hxeq, hyeq, hdd, henn]
  · intro k en ds hget hds
    obtain ⟨hk, hen⟩ := List.get?_eq_some.mp hget
    have hmem : en ∈ catalog := hen ▸ List.get_mem catalog k hk
    have hprod := hng en hmem
    have hspec := encodeDigits_spec (axesOf nbins en.g) ds (hpos en hmem) hds
    have hoff : encodeDigits (axesOf nbins en.g) ds < en.ng := by
      rw [hprod]
      exact hspec.1
    have hofg : encodeDigits (axesOf nbins en.g) ds < (catalog.get ⟨k, hk⟩).ng := by
      rw [hen]
      exact hoff
    refine ⟨ngBefore catalog k + encodeDigits (axesOf nbins en.g) ds,
      ngBefore_add_lt catalog k hk _ hofg, ?_⟩
    unfold decodeEntryDigits
    rw [findBlockIdx_block catalog k hk _ hofg, Option.some_bind, hget]
    show some (k, extractDigits (axesOf nbins en.g) en.ng
        (encodeDigits (axesOf nbins en.g) ds)) = some (k, ds)
    rw [hprod, hspec.2]

/-- The C3 witness catalog: one intervention entry with the Soil-style
two-axis dict schema (declared `plot` before `amount#L`); the compiled space
walks the sorted order `amount#L` (cardinality `B = 11`) then `plot`
(cardinality `3`), so `ng = 33`. -/
def c3Catalog : List InterEntry :=
  [buildEntry "BasicFarmer-0" "Field-0" "Soil-0" "water" c3SoilSchema 11]

/-- Witness for C3 (amended) on `c3Catalog`: index `14` decodes to the unique
pair `(entry 0, digits [4, 2])` over the sorted axes `[11, 3]`, and that
digit combination is reachable. -/
theorem C3_mixed_radix_bijection_witness :
    decodeEntryDigits 11 c3Catalog 14 = some (0, [4, 2]) ∧
    (∃ (k : ℕ) (en : InterEntry) (ds : List ℕ),
      decodeEntryDigits 11 c3Catalog 14 = some (k, ds) ∧
      c3Catalog.get? k = some en ∧
      List.Forall₂ (fun d c => d < c) ds (axesOf 11 en.g) ∧
      14 = ngBefore c3Catalog k + encodeDigits (axesOf 11 en.g) ds) :=
  ⟨rfl,
   (C3_mixed_radix_bijection 11 c3Catalog (by decide) (by decide)).2.2.1 14 (by decide)⟩

lemma obsCost_foldl (c : Collab) (l : List ScheduleItem) (acc : ℚ) :
    l.foldl (fun acc item =>
      match item with
      | .obs fa fi e v path => acc + c.obsCost fa fi e v path
      | .intervene .. => acc) acc =
    acc + (l.map (fun item =>
      match item with
      | .obs fa fi e v path => c.obsCost fa fi e v path
      | .intervene .. => 0)).sum := by
  induction l generalizing acc with
  | nil => simp
  | cons item rest ih =>
      cases item with
      | obs fa fi e v path =>
          simp only [List.foldl_cons, List.map_cons, List.sum_cons]
          rw [ih]
          ring
      | intervene fa fi e a p =>
          simp only [List.foldl_cons, List.map_cons, List.sum_cons]
          rw [ih]
          ring

/-- C7: a step taken during the observation phase mutates no entity state.
Intervention items are filtered out by the Rules collaborator before
execution (third conjunct); every variable tree is unchanged and the shared
generator untouched (first and second conjuncts); the step returns
`reward = 0`, `terminated = False`, `truncated = False` and the summed
per-observation cost under the key `"observation cost"`; no intervention
effects are recorded; and the phase flips to intervene. -/
theorem C7_observation_step_frame (c : Collab) (s : FarmState) (sched : List ScheduleItem)
    (hphase : s.isObservationTime = true) :
    (farmgymStep c s sched).state.fields = s.fields ∧
    (farmgymStep c s sched).state.rng = s.rng ∧
    (∀ item ∈ filterActions s.isObservationTime sched, isObsItem item = true) ∧
    (farmgymStep c s sched).reward = 0 ∧
    (farmgymStep c s sched).terminated = false ∧
    (farmgymStep c s sched).truncated = false ∧
    (farmgymStep c s sched).infoKey = "observation cost" ∧
    (farmgymStep c s sched).infoCost =
      ((filterActions true sched).map (fun item =>
        match item with
        | .obs fa fi e v path => c.obsCost fa fi e v path
        | .intervene .. => 0)).sum ∧
    (farmgymStep c s sched).state.isObservationTime = false ∧
    (farmgymStep c s sched).events = [] := by
  have hstep : farmgymStep c s sched =
      { observationStep c s (filterActions true sched) with
        state := { (observationStep c s (filterActions true sched)).state with
          isObservationTime := false } } := by
    unfold farmgymStep
    rw [hphase]
    simp
  refine ⟨?_, ?_, ?_, ?_, ?_, ?_, ?_, ?_, ?_, ?_⟩
  · rw [hstep]; rfl
  · rw [hstep]; rfl
  · intro item hmem
    rw [hphase] at hmem
    have hpred := (List.mem_filter.mp hmem).2
    cases item with
    | obs fa fi e v path => rfl
    | intervene fa fi e a p => simp at hpred
  · rw [hstep]; rfl
  · rw [hstep]; rfl
  · rw [hstep]; rfl
  · rw [hstep]; rfl
  · rw [hstep]
    show (observationStep c s (filterActions true sched)).infoCost = _
    unfold observationStep
    rw [obsCost_foldl]
    simp
  · rw [hstep]
  · rw [hstep]; rfl

/-- Witness state for C7: the observation phase with one field. -/
def c7State : FarmState :=
  { rng := 0, fields := [("Field-0", [("Plant-0/stage", 2)])], isObservationTime := true }

/-- Witness collaborators for C7 and C8. -/
def c78Collab : Collab :=
  { seedFn := id,
    resetFields := fun _ => [("Field-0", [("Plant-0/stage", 0)])],
    freeObs := [],
    obsCost := fun _ _ _ _ _ => 1,
    intvCost := fun _ _ _ _ _ => 2,
    rewardF := fun _ => 3,
    finalRewardF := fun _ => 5,
    isTerminal := fun _ => true,
    applyIntv := fun f _ _ _ => (f, []),
    updateField := fun _ f => f }

/-- Witness schedule for C7: one observation plus one intervention that must
be filtered away. -/
def c7Sched : List ScheduleItem :=
  [.obs "BasicFarmer-0" "Field-0" "Plant-0" "stage" [],
   .intervene "BasicFarmer-0" "Field-0" "Plant-0" "water" (.num 0)]

/-- Witness for C7 at a concrete observation-phase state and a schedule
containing an intervention. -/
theorem C7_observation_step_frame_witness :
    (farmgymStep c78Collab c7State c7Sched).state.fields = c7State.fields ∧
    (∀ item ∈ filterActions c7State.isObservationTime c7Sched, isObsItem item = true) ∧
    (farmgymStep c78Collab c7State c7Sched).reward = 0 ∧
    (farmgymStep c78Collab c7State c7Sched).terminated = false ∧
    (farmgymStep c78Collab c7State c7Sched).state.isObservationTime = false :=
  have h := C7_observation_step_frame c78Collab c7State c7Sched rfl
  ⟨h.1, h.2.2.1, h.2.2.2.1, h.2.2.2.2.1, h.2.2.2.2.2.2.2.2.1⟩

lemma noUpdateAfterFinal_finals (fins : List StepEvent)
    (hf : ∀ ev ∈ fins, ∃ fi, ev = StepEvent.finalRewardAdded fi) :
    noUpdateAfterFinal fins = true := by
  induction fins with
  | nil => rfl
  | cons ev rest ih =>
      obtain ⟨fi, hev⟩ := hf ev (List.mem_cons_self ev rest)
      subst hev
      have hall : rest.all (fun ev =>
          match ev with
          | StepEvent.updateVariables _ => false
          | StepEvent.finalRewardAdded _ => true) = true := by
        rw [List.all_eq_true]
        intro ev hmem
        obtain ⟨fi2, h2⟩ := hf ev (List.mem_cons_of_mem _ hmem)
        subst h2
        rfl
      have hrest := ih (fun ev hmem => hf ev (List.mem_cons_of_mem _ hmem))
      simp [noUpdateAfterFinal, hall, hrest]

lemma noUpdateAfterFinal_append (upds fins : List StepEvent)
    (hu : ∀ ev ∈ upds, ∃ fi, ev = StepEvent.updateVariables fi)
    (hf : ∀ ev ∈ fins, ∃ fi, ev = StepEvent.finalRewardAdded fi) :
    noUpdateAfterFinal (upds ++ fins) = true := by
  induction upds with
  | nil => simpa using noUpdateAfterFinal_finals fins hf
  | cons ev rest ih =>
      obtain ⟨fi, hev⟩ := hu ev (List.mem_cons_self ev rest)
      subst hev
      simp only [List.cons_append, noUpdateAfterFinal]
      exact ih (fun e hm => hu e (List.mem_cons_of_mem _ hm))

lemma interventionStep_terminal_spec (c : Collab) (s : FarmState)
    (schedule : List ScheduleItem)
    (hterm : (interventionStep c s schedule).terminated = true) :
    (interventionStep c s schedule).reward =
      ((interventionStep c s schedule).state.fields.map (fun p => c.rewardF p.2)).sum +
      ((interventionStep c s schedule).state.fields.map (fun p => c.finalRewardF p.2)).sum ∧
    (interventionStep c s schedule).events =
      (interventionStep c s schedule).state.fields.map
        (fun p => StepEvent.updateVariables p.1) ++
      (interventionStep c s schedule).state.fields.map
        (fun p => StepEvent.finalRewardAdded p.1) := by
  unfold interventionStep at hterm ⊢
  simp only at hterm ⊢
  rw [hterm]
  simp [List.map_map, Function.comp]

lemma interventionStep_events_shape (c : Collab) (s : FarmState)
    (schedule : List ScheduleItem) :
    (∀ ev ∈ (interventionStep c s schedule).state.fields.map
        (fun p => StepEvent.updateVariables p.1), ∃ fi, ev = StepEvent.updateVariables fi) ∧
    (∀ ev ∈ (interventionStep c s schedule).state.fields.map
        (fun p => StepEvent.finalRewardAdded p.1), ∃ fi, ev = StepEvent.finalRewardAdded fi) := by
  constructor
  · intro ev hmem
    obtain ⟨p, _, hp⟩ := List.mem_map.mp hmem
    exact ⟨p.1, hp.symm⟩
  · intro ev hmem
    obtain ⟨p, _, hp⟩ := List.mem_map.mp hmem
    exact ⟨p.1, hp.symm⟩

/-- C8: on an intervention step whose termination predicate fires, the
returned reward equals the per-field reward sum plus exactly one final-reward
addition per field (the recorded trace holds one `finalRewardAdded` event per
field, after all `updateVariables` events), the step returns
`terminated = True`, and because the episode driver stops stepping on a
terminated step, no further `update_variables` calls occur afterward in the
same episode. -/
theorem C8_terminal_step_final_reward (c : Collab) (s : FarmState)
    (sched : List ScheduleItem) (rest : List (List ScheduleItem))
    (hphase : s.isObservationTime = false)
    (hterm : (farmgymStep c s sched).terminated = true) :
    (farmgymStep c s sched).reward =
      ((farmgymStep c s sched).state.fields.map (fun p => c.rewardF p.2)).sum +
      ((farmgymStep c s sched).state.fields.map (fun p => c.finalRewardF p.2)).sum ∧
    (farmgymStep c s sched).events =
      (farmgymStep c s sched).state.fields.map (fun p => StepEvent.updateVariables p.1) ++
      (farmgymStep c s sched).state.fields.map (fun p => StepEvent.finalRewardAdded p.1) ∧
    noUpdateAfterFinal (farmgymStep c s sched).events = true ∧
    (farmgymStep c s sched).terminated = true ∧
    runEpisodeEvents c s (sched :: rest) = (farmgymStep c s sched).events := by
  have hstep : farmgymStep c s sched =
      { interventionStep c s (filterActions false sched) with
        state := { (interventionStep c s (filterActions false sched)).state with
          isObservationTime := true } } := by
    unfold farmgymStep
    rw [hphase]
    simp
  have hterm2 : (interventionStep c s (filterActions false sched)).terminated = true := by
    rw [hstep] at hterm
    exact hterm
  have hspec := interventionStep_terminal_spec c s (filterActions false sched) hterm2
  have hshape := interventionStep_events_shape c s (filterActions false sched)
  refine ⟨?_, ?_, ?_, hterm, ?_⟩
  · rw [hstep]
    exact hspec.1
  · rw [hstep]
    exact hspec.2
  · rw [hstep]
    show noUpdateAfterFinal (interventionStep c s (filterActions false sched)).events = true
    rw [hspec.2]
    exact noUpdateAfterFinal_append _ _ hshape.1 hshape.2
  · show (farmgymStep c s sched).events ++ _ = _
    rw [hterm]
    simp

/-- Witness state for C8: the intervention phase with one field. -/
def c8State : FarmState :=
  { rng := 0, fields := [("Field-0", [("Plant-0/stage", 2)])], isObservationTime := false }

/-- Witness for C8 at a concrete terminal step (`c78Collab.isTerminal` is
constantly true): the reward adds the final reward exactly once and the
episode records no event after the step. -/
theorem C8_terminal_step_final_reward_witness :
    (farmgymStep c78Collab c8State []).reward =
      ((farmgymStep c78Collab c8State []).state.fields.map
        (fun p => c78Collab.rewardF p.2)).sum +
      ((farmgymStep c78Collab c8State []).state.fields.map
        (fun p => c78Collab.finalRewardF p.2)).sum ∧
    (farmgymStep c78Collab c8State []).terminated = true ∧
    noUpdateAfterFinal (farmgymStep c78Collab c8State []).events = true ∧
    runEpisodeEvents c78Collab c8State [[], [ScheduleItem.intervene "BasicFarmer-0"
        "Field-0" "Plant-0" "water" (.num 0)]] =
      (farmgymStep c78Collab c8State []).events :=
  have h := C8_terminal_step_final_reward c78Collab c8State []
    [[ScheduleItem.intervene "BasicFarmer-0" "Field-0" "Plant-0" "water" (.num 0)]] rfl rfl
  ⟨h.1, h.2.2.2.1, h.2.2.1, h.2.2.2.2⟩

/-- C9: calling `reset()` twice in a row with the same seed yields identical
subsequent `step()` trajectories.  `farmgym_reset` reseeds the generator from
the seed alone and rebuilds every field and entity from it, so the post-reset
state — and with it every subsequent observation, reward, termination flag,
info entry and final entity variable value for a fixed action sequence — does
not depend on the state the reset started from. -/
theorem C9_reset_determinism (c : Collab) (seed : ℕ) (s1 s2 : FarmState)
    (scheds : List (List ScheduleItem)) :
    farmgymReset c seed s1 = farmgymReset c seed s2 ∧
    trajectory c (farmgymReset c seed s1).1 scheds =
      trajectory c (farmgymReset c seed s2).1 scheds ∧
    finalState c (farmgymReset c seed s1).1 scheds =
      finalState c (farmgymReset c seed s2).1 scheds :=
  ⟨rfl, rfl, rfl⟩
